import Mathlib

/-!
# Verification of the nfl_veripy closed-loop reachability drivers

A shallow embedding, over `ℚ`, of the data model and operations used by the
three driver files of the repository (`nn_closed_loop/example_cfg.py`,
`closed_loop/ClosedLoopExperiments.py`, `partition/analyzers/Analyzer.py`),
together with spec-modelled definitions of the closed-loop reachability
engine (propagators, closed-loop step, analyzer loop, error metrics) whose
implementation is not among the three files; those definitions carry a
`Modelled from the spec:` note in their doc comment.
-/

namespace NFLVeripy

/-- A state or control vector: one rational per dimension. -/
abbrev Vec := List ℚ

/-- An axis-aligned box: one `(lower, upper)` interval per dimension. -/
abbrev Box := List (ℚ × ℚ)

/-- Membership of a point in a box: dimensions agree and every coordinate
lies inside its interval. -/
def memBox (x : Vec) (b : Box) : Prop :=
  List.Forall₂ (fun xi p => p.1 ≤ xi ∧ xi ≤ p.2) x b

/-- Box inclusion: same dimension and every interval of `a` is inside the
corresponding interval of `b`. -/
def subBox (a b : Box) : Prop :=
  List.Forall₂ (fun p q => q.1 ≤ p.1 ∧ p.2 ≤ q.2) a b

/-- Dot product of two vectors (zipped; dimensions are equal in use). -/
def dot (r x : Vec) : ℚ := (List.zipWith (· * ·) r x).sum

/-- Lower bound of `dot r x` over `x` in box `b`: signed-matrix interval
rule, `W⁺·l + W⁻·u` taken entrywise (spec §4.4, IBP formulas). -/
def rowLo (r : Vec) (b : Box) : ℚ :=
  (List.zipWith (fun ri p => if 0 ≤ ri then ri * p.1 else ri * p.2) r b).sum

/-- Upper bound of `dot r x` over `x` in box `b`: `W⁺·u + W⁻·l`. -/
def rowHi (r : Vec) (b : Box) : ℚ :=
  (List.zipWith (fun ri p => if 0 ≤ ri then ri * p.2 else ri * p.1) r b).sum

/-- Matrix-vector product, rows first. -/
def matVec (M : List Vec) (x : Vec) : Vec := M.map (fun r => dot r x)

/-- Interval image of a box under a matrix (signed-matrix interval rules). -/
def matBox (M : List Vec) (b : Box) : Box := M.map (fun r => (rowLo r b, rowHi r b))

/-- Vector addition (zipped). -/
def vadd (x y : Vec) : Vec := List.zipWith (· + ·) x y

/-- Minkowski sum of two boxes: intervals add componentwise. -/
def boxAdd (a b : Box) : Box := List.zipWith (fun p q => (p.1 + q.1, p.2 + q.2)) a b

/-- The degenerate box `{c}`. -/
def pointBox (c : Vec) : Box := c.map (fun ci => (ci, ci))

theorem dot_ge_rowLo (r : Vec) : ∀ {x : Vec} {b : Box}, memBox x b → rowLo r b ≤ dot r x := by
  induction r with
  | nil => intro x b _; simp [rowLo, dot]
  | cons a r ih =>
    intro x b h
    cases h with
    | nil => simp [rowLo, dot]
    | @cons xi p x' b' hp h' =>
      have tail := ih h'
      simp only [rowLo, dot, List.zipWith_cons_cons, List.sum_cons] at *
      have head : (if 0 ≤ a then a * p.1 else a * p.2) ≤ a * xi := by
        rcases le_or_lt 0 a with ha | ha
        · simpa [ha] using mul_le_mul_of_nonneg_left hp.1 ha
        · simp only [not_le.2 ha, if_neg (not_le.2 ha)]
          exact mul_le_mul_of_nonpos_left hp.2 (le_of_lt ha)
      exact add_le_add head tail

theorem dot_le_rowHi (r : Vec) : ∀ {x : Vec} {b : Box}, memBox x b → dot r x ≤ rowHi r b := by
  induction r with
  | nil => intro x b _; simp [rowHi, dot]
  | cons a r ih =>
    intro x b h
    cases h with
    | nil => simp [rowHi, dot]
    | @cons xi p x' b' hp h' =>
      have tail := ih h'
      simp only [rowHi, dot, List.zipWith_cons_cons, List.sum_cons] at *
      have head : a * xi ≤ (if 0 ≤ a then a * p.2 else a * p.1) := by
        rcases le_or_lt 0 a with ha | ha
        · simpa [ha] using mul_le_mul_of_nonneg_left hp.2 ha
        · simp only [if_neg (not_le.2 ha)]
          exact mul_le_mul_of_nonpos_left hp.1 (le_of_lt ha)
      exact add_le_add head tail

theorem memBox_matVec {x : Vec} {b : Box} (M : List Vec) (h : memBox x b) :
    memBox (matVec M x) (matBox M b) := by
  induction M with
  | nil => exact List.Forall₂.nil
  | cons r M ih =>
    exact List.Forall₂.cons ⟨dot_ge_rowLo r h, dot_le_rowHi r h⟩ ih

theorem memBox_vadd : ∀ {x y : Vec} {a b : Box}, memBox x a → memBox y b →
    memBox (vadd x y) (boxAdd a b) := by
  intro x y a b hx
  induction hx generalizing y b with
  | nil => intro _; exact List.Forall₂.nil
  | @cons xi p x' a' hp _ ih =>
    intro hy
    cases hy with
    | nil => exact List.Forall₂.nil
    | @cons yi q y' b' hq hy' =>
      exact List.Forall₂.cons ⟨add_le_add hp.1 hq.1, add_le_add hp.2 hq.2⟩ (ih hy')

theorem memBox_pointBox (c : Vec) : memBox c (pointBox c) := by
  induction c with
  | nil => exact List.Forall₂.nil
  | cons ci c ih => exact List.Forall₂.cons ⟨le_refl ci, le_refl ci⟩ ih

/-! ## Network model and IBP propagator

Modelled from the spec: the controller abstraction (§3 Network, §4.3) and the
interval-bound propagator (§4.4 IBP); the propagator library lives outside the
three driver files. -/

/-- Activation tag of a layer: ReLU or identity (spec §3, Network). -/
inductive Activation where
  | relu
  | linear
deriving DecidableEq

/-- A network layer: affine map `(W, b)` followed by an activation tag. -/
structure Layer where
  W : List Vec
  b : Vec
  act : Activation

/-- A feed-forward network: ordered list of layers (spec §3). -/
abbrev Network := List Layer

/-- Concrete activation function. -/
def actFun : Activation → ℚ → ℚ
  | .relu => fun t => max t 0
  | .linear => id

/-- Interval image of an activation: ReLU maps `(l,u)` to `(max l 0, max u 0)`
(spec §4.4 IBP). -/
def actBox : Activation → (ℚ × ℚ) → (ℚ × ℚ)
  | .relu => fun p => (max p.1 0, max p.2 0)
  | .linear => id

/-- Evaluate one layer on a concrete point. -/
def layerEval (L : Layer) (x : Vec) : Vec :=
  (vadd (matVec L.W x) L.b).map (actFun L.act)

/-- Concrete forward evaluation of the network (spec §4.3 `eval`). -/
def nnEval (net : Network) (x : Vec) : Vec :=
  net.foldl (fun y L => layerEval L y) x

/-- IBP on one layer: pre-activation bounds `L = W⁺·l + W⁻·u + b`,
`U = W⁺·u + W⁻·l + b`, then the activation's interval image (spec §4.4). -/
def layerIBP (L : Layer) (b : Box) : Box :=
  (boxAdd (matBox L.W b) (pointBox L.b)).map (actBox L.act)

/-- Modelled from the spec: the IBP propagator (§4.4), layer-by-layer interval
propagation; its implementation is not among the three source files. -/
def ibp (net : Network) (b : Box) : Box :=
  net.foldl (fun c L => layerIBP L c) b

theorem memBox_actBox (a : Activation) : ∀ {x : Vec} {b : Box}, memBox x b →
    memBox (x.map (actFun a)) (b.map (actBox a)) := by
  intro x b h
  induction h with
  | nil => exact List.Forall₂.nil
  | @cons xi p x' b' hp _ ih =>
    refine List.Forall₂.cons ?_ ih
    cases a with
    | relu => exact ⟨max_le_max hp.1 (le_refl 0), max_le_max hp.2 (le_refl 0)⟩
    | linear => exact hp

theorem memBox_layerEval (L : Layer) {x : Vec} {b : Box} (h : memBox x b) :
    memBox (layerEval L x) (layerIBP L b) :=
  memBox_actBox L.act (memBox_vadd (memBox_matVec L.W h) (memBox_pointBox L.b))

/-- Soundness of IBP (the §4.4 propagator contract): the concrete output of
the network on any point of the input box lies in the propagated box. -/
theorem ibp_sound (net : Network) : ∀ {x : Vec} {b : Box}, memBox x b →
    memBox (nnEval net x) (ibp net b) := by
  induction net with
  | nil => intro x b h; exact h
  | cons L net ih =>
    intro x b h
    exact ih (memBox_layerEval L h)

/-! ## Dynamics, saturation and the closed-loop step

Modelled from the spec: §3 Dynamics, §4.2 and §4.5; the dynamics library is
not among the three source files. -/

/-- Discrete-time affine plant `x' = A·x + B·u + c` with actuator bounds
`u ∈ [uMin, uMax]` stored as the box `uBox` (spec §3, Dynamics). -/
structure Dynamics where
  A : List Vec
  B : List Vec
  c : Vec
  uBox : Box

/-- Elementwise actuator saturation: `clip(u, lo, hi)` (spec Glossary). -/
def clipVec (u : Vec) (ub : Box) : Vec :=
  List.zipWith (fun ui p => max p.1 (min ui p.2)) u ub

/-- Interval image of saturation on a control box. -/
def clipBox (b ub : Box) : Box :=
  List.zipWith (fun p q => (max q.1 (min p.1 q.2), max q.1 (min p.2 q.2))) b ub

theorem memBox_clipVec (ub : Box) : ∀ {u : Vec} {b : Box}, memBox u b →
    memBox (clipVec u ub) (clipBox b ub) := by
  intro u b h
  induction h generalizing ub with
  | nil => cases ub <;> exact List.Forall₂.nil
  | @cons ui p u' b' hp _ ih =>
    cases ub with
    | nil => exact List.Forall₂.nil
    | cons q ub' =>
      refine List.Forall₂.cons ?_ (ih ub')
      exact ⟨max_le_max (le_refl q.1) (min_le_min hp.1 (le_refl q.2)),
             max_le_max (le_refl q.1) (min_le_min hp.2 (le_refl q.2))⟩

/-- One concrete closed-loop step: `x' = A·x + B·sat(f_net(x)) + c`
(spec §4.5, with `uₜ = sat(f_net(xₜ))` from §3 Reachable tube). -/
def closedLoopStep (net : Network) (d : Dynamics) (x : Vec) : Vec :=
  vadd (matVec d.A x) (vadd (matVec d.B (clipVec (nnEval net x) d.uBox)) d.c)

/-- Modelled from the spec: the closed-loop step on sets (§4.5):
`U = clip(P.bound(S), uMin, uMax)`, then `S' = A·S ⊕ B·U ⊕ {c}` with
signed-matrix interval rules. `uBound` is the propagator's raw output box. -/
def stepBox (d : Dynamics) (S uBound : Box) : Box :=
  boxAdd (matBox d.A S) (boxAdd (matBox d.B (clipBox uBound d.uBox)) (pointBox d.c))

theorem memBox_stepBox {net : Network} {d : Dynamics} {x : Vec} {S uBound : Box}
    (hx : memBox x S) (hu : memBox (nnEval net x) uBound) :
    memBox (closedLoopStep net d x) (stepBox d S uBound) :=
  memBox_vadd (memBox_matVec d.A hx)
    (memBox_vadd (memBox_matVec d.B (memBox_clipVec d.uBox hu)) (memBox_pointBox d.c))

/-! ## Forward analyzer: trajectories and the reachable tube

Modelled from the spec: §4.7 Forward ("iteratively applies
`partitioner.bound_step` for t = 0…T−1, storing [S₀…S_T]"), with the *None*
partitioner (§4.6) delegating to the §4.5 closed-loop step and an arbitrary
propagator `P` satisfying the §4.4 contract; `get_reachable_set` is not among
the three source files. -/

/-- The closed-loop trajectory from `x0` (spec §3, Reachable tube). -/
def traj (net : Network) (d : Dynamics) (x0 : Vec) : Nat → Vec
  | 0 => x0
  | t + 1 => closedLoopStep net d (traj net d x0 t)

/-- The reachable set at time `t`, iterating the closed-loop step with
propagator `P`. -/
def reachSet (d : Dynamics) (P : Box → Box) (S0 : Box) : Nat → Box
  | 0 => S0
  | t + 1 => stepBox d (reachSet d P S0 t) (P (reachSet d P S0 t))

/-- The reachable tube `[S₀, …, S_T]`, of length `T+1` (spec §3). -/
def reachTube (d : Dynamics) (P : Box → Box) (S0 : Box) (T : Nat) : List Box :=
  (List.range (T + 1)).map (reachSet d P S0)

theorem reachSet_sound (net : Network) (d : Dynamics) (P : Box → Box)
    (hP : ∀ b x, memBox x b → memBox (nnEval net x) (P b))
    {x0 : Vec} {S0 : Box} (h0 : memBox x0 S0) :
    ∀ t, memBox (traj net d x0 t) (reachSet d P S0 t) := by
  intro t
  induction t with
  | zero => exact h0
  | succ t ih =>
    exact memBox_stepBox ih (hP (reachSet d P S0 t) (traj net d x0 t) ih)

theorem reachTube_getD (d : Dynamics) (P : Box → Box) (S0 : Box) {t T : Nat}
    (ht : t ≤ T) : (reachTube d P S0 T).getD t [] = reachSet d P S0 t := by
  have hlt : t < T + 1 := Nat.lt_succ_of_le ht
  simp [reachTube, List.getD_eq_getElem?_getD, List.getElem?_map,
    List.getElem?_range, hlt]

/-! ## Partitioned bound steps and the hull of per-cell bounds

Modelled from the spec: §4.6 — the Uniform, SimGuided and GreedySimGuided
partitioners split the current set into cells covering it, compute per-cell
next-step boxes and return their axis-aligned hull; the partitioner library
is not among the three source files. -/

/-- Componentwise join of two boxes: the smallest box containing both. -/
def boxJoin (a b : Box) : Box :=
  List.zipWith (fun p q => (min p.1 q.1, max p.2 q.2)) a b

/-- Axis-aligned hull of a list of cell bounds (spec §4.1 `hull`, §4.6). -/
def boxHull : List Box → Box
  | [] => []
  | c :: cs => cs.foldl boxJoin c

theorem memBox_boxJoin_left : ∀ {y : Vec} {a b : Box}, memBox y a →
    a.length ≤ b.length → memBox y (boxJoin a b) := by
  intro y a b h
  induction h generalizing b with
  | nil => intro _; exact List.Forall₂.nil
  | @cons yi p y' a' hp _ ih =>
    intro hlen
    cases b with
    | nil => simp at hlen
    | cons q b' =>
      refine List.Forall₂.cons
        ⟨le_trans (min_le_left p.1 q.1) hp.1, le_trans hp.2 (le_max_left p.2 q.2)⟩ ?_
      exact ih (Nat.succ_le_succ_iff.mp hlen)

theorem memBox_boxJoin_right : ∀ {y : Vec} {a b : Box}, memBox y b →
    b.length ≤ a.length → memBox y (boxJoin a b) := by
  intro y a b h
  induction h generalizing a with
  | nil => intro _; cases a <;> exact List.Forall₂.nil
  | @cons yi q y' b' hq _ ih =>
    intro hlen
    cases a with
    | nil => simp at hlen
    | cons p a' =>
      refine List.Forall₂.cons
        ⟨le_trans (min_le_right p.1 q.1) hq.1, le_trans hq.2 (le_max_right p.2 q.2)⟩ ?_
      exact ih (Nat.succ_le_succ_iff.mp hlen)

theorem boxJoin_length (a b : Box) : (boxJoin a b).length = min a.length b.length :=
  List.length_zipWith ..

theorem memBox_foldl_boxJoin : ∀ (cs : List Box) (acc : Box) {y : Vec},
    memBox y acc → (∀ b ∈ cs, b.length = acc.length) →
    memBox y (cs.foldl boxJoin acc) := by
  intro cs
  induction cs with
  | nil => intro acc y hy _; exact hy
  | cons b cs ih =>
    intro acc y hy hlen
    have hb : b.length = acc.length := hlen b (List.mem_cons_self b cs)
    have hjl : (boxJoin acc b).length = acc.length := by
      rw [boxJoin_length, hb, min_self]
    refine ih (boxJoin acc b) (memBox_boxJoin_left hy (le_of_eq hb.symm)) ?_
    intro b' hb'
    rw [hjl]
    exact hlen b' (List.mem_cons_of_mem _ hb')

theorem memBox_foldl_boxJoin_mem : ∀ (cs : List Box) (acc : Box) {y : Vec} {c : Box},
    c ∈ cs → memBox y c → acc.length = c.length →
    (∀ b ∈ cs, b.length = c.length) → memBox y (cs.foldl boxJoin acc) := by
  intro cs
  induction cs with
  | nil => intro acc y c hc; cases hc
  | cons b cs ih =>
    intro acc y c hc hy hacc hlen
    rcases List.mem_cons.mp hc with rfl | hc'
    · have hjl : (boxJoin acc c).length = c.length := by
        rw [boxJoin_length, hacc, min_self]
      refine memBox_foldl_boxJoin cs (boxJoin acc c)
        (memBox_boxJoin_right hy (le_of_eq hacc.symm)) ?_
      intro b' hb'
      rw [hjl]
      exact hlen b' (List.mem_cons_of_mem _ hb')
    · have hbl : b.length = c.length := hlen b (List.mem_cons_self b cs)
      have hjl : (boxJoin acc b).length = c.length := by
        rw [boxJoin_length, hacc, hbl, min_self]
      exact ih (boxJoin acc b) hc' hy hjl (fun b' hb' => hlen b' (List.mem_cons_of_mem _ hb'))

theorem memBox_boxHull {cells : List Box} {c : Box} {y : Vec} (hc : c ∈ cells)
    (hy : memBox y c) (hdim : ∀ b ∈ cells, b.length = c.length) :
    memBox y (boxHull cells) := by
  cases cells with
  | nil => cases hc
  | cons a cs =>
    rcases List.mem_cons.mp hc with rfl | hc'
    · exact memBox_foldl_boxJoin cs c hy (fun b hb => hdim b (List.mem_cons_of_mem _ hb))
    · exact memBox_foldl_boxJoin_mem cs a hc' hy (hdim a (List.mem_cons_self a cs))
        (fun b hb => hdim b (List.mem_cons_of_mem _ hb))

theorem stepBox_length (d : Dynamics) (S U : Box) :
    (stepBox d S U).length = min d.A.length (min d.B.length d.c.length) := by
  simp [stepBox, boxAdd, matBox, pointBox, List.length_zipWith, List.length_map]

/-- Modelled from the spec: the partitioned `bound_step` (§4.6 Uniform /
SimGuided / GreedySimGuided): split the current set into cells, compute the
per-cell next-step boxes via the §4.5 closed-loop step and return their
axis-aligned hull. -/
def hullBoundStep (split : Box → List Box) (d : Dynamics) (P : Box → Box) (S : Box) : Box :=
  boxHull ((split S).map (fun c => stepBox d c (P c)))

/-- The §4.6 contract for partitioned bound steps: whenever the cells cover
their parent set and the propagator is sound, the hull of the per-cell
stepped boxes over-approximates the concrete closed-loop step. -/
theorem hullBoundStep_sound (net : Network) (d : Dynamics) (split : Box → List Box)
    (P : Box → Box) (hP : ∀ b x, memBox x b → memBox (nnEval net x) (P b))
    (hcover : ∀ S x, memBox x S → ∃ c ∈ split S, memBox x c) :
    ∀ S x, memBox x S → memBox (closedLoopStep net d x) (hullBoundStep split d P S) := by
  intro S x hx
  obtain ⟨c, hc, hxc⟩ := hcover S x hx
  refine memBox_boxHull (List.mem_map_of_mem _ hc)
    (memBox_stepBox hxc (hP c x hxc)) ?_
  intro b hb
  obtain ⟨c', _, rfl⟩ := List.mem_map.mp hb
  rw [stepBox_length, stepBox_length]

/-- The reachable set at time `t` for an arbitrary partitioner `bound_step`
(spec §4.7 forward loop iterating §4.6 `bound_step`). -/
def reachSetB (bstep : Box → Box) (S0 : Box) : Nat → Box
  | 0 => S0
  | t + 1 => bstep (reachSetB bstep S0 t)

/-- The reachable tube `[S₀, …, S_T]` for an arbitrary `bound_step`. -/
def reachTubeB (bstep : Box → Box) (S0 : Box) (T : Nat) : List Box :=
  (List.range (T + 1)).map (reachSetB bstep S0)

theorem reachSetB_sound (net : Network) (d : Dynamics) (bstep : Box → Box)
    (hb : ∀ S x, memBox x S → memBox (closedLoopStep net d x) (bstep S))
    {x0 : Vec} {S0 : Box} (h0 : memBox x0 S0) :
    ∀ t, memBox (traj net d x0 t) (reachSetB bstep S0 t) := by
  intro t
  induction t with
  | zero => exact h0
  | succ t ih => exact hb (reachSetB bstep S0 t) (traj net d x0 t) ih

theorem reachTubeB_getD (bstep : Box → Box) (S0 : Box) {t T : Nat} (ht : t ≤ T) :
    (reachTubeB bstep S0 T).getD t [] = reachSetB bstep S0 t := by
  have hlt : t < T + 1 := Nat.lt_succ_of_le ht
  simp [reachTubeB, List.getD_eq_getElem?_getD, List.getElem?_map,
    List.getElem?_range, hlt]

/-- A concrete two-cell partitioner used by the C1 witness: bisect the
first axis at its midpoint. -/
def splitFirst (S : Box) : List Box :=
  match S with
  | [] => [[]]
  | p :: rest => [(p.1, (p.1 + p.2) / 2) :: rest, ((p.1 + p.2) / 2, p.2) :: rest]

theorem splitFirst_covers : ∀ (S : Box) (x : Vec), memBox x S →
    ∃ c ∈ splitFirst S, memBox x c := by
  intro S x hx
  cases hx with
  | nil => exact ⟨[], List.mem_singleton.mpr rfl, List.Forall₂.nil⟩
  | @cons xi p x' S' hp hx' =>
    rcases le_total xi ((p.1 + p.2) / 2) with hle | hge
    · exact ⟨_, List.mem_cons_self _ _, List.Forall₂.cons ⟨hp.1, hle⟩ hx'⟩
    · exact ⟨_, List.mem_cons_of_mem _ (List.mem_cons_self _ _),
        List.Forall₂.cons ⟨hge, hp.2⟩ hx'⟩

/-- Concrete double-integrator plant of the spec's scenario 1:
`A = [[1,1],[0,1]]`, `B = [[0.5],[1]]`, `c = 0`, `u ∈ [−1, 1]`. -/
def diDyn : Dynamics := ⟨[[1, 1], [0, 1]], [[1/2], [1]], [0, 0], [(-1, 1)]⟩

/-- Scenario 1 initial set `S₀ = [2.5,3] × [−0.25,0.25]`. -/
def diS0 : Box := [(5/2, 3), (-1/4, 1/4)]

/-- A concrete one-layer linear controller used to instantiate theorems with
a propagator hypothesis; its IBP bound over `diS0` is `[-5/2, 5/2]`. -/
def cnet : Network := [⟨[[10, 0]], [-55/2], .linear⟩]

/-- A concrete initial state in `diS0`. -/
def x0w : Vec := [11/4, 0]

end NFLVeripy

namespace NFLVeripy

/-- C1. Soundness of the reachable tube: for every configuration — any
plant, any controller network, and any partitioner/propagator combination,
i.e. any one-step `bound_step` satisfying the §4.6 contract of over-
approximating the concrete closed-loop step (`hullBoundStep_sound`
establishes the contract for the hulled per-cell steps of the Uniform,
SimGuided and GreedySimGuided partitioners with any sound propagator, and
`memBox_stepBox` for the None partitioner; the seed plays no role) — every
closed-loop trajectory with `x₀ ∈ S₀` and `uₜ = sat(f_net(xₜ))` satisfies
`xₜ ∈ Sₜ` for every `t ≤ T`, where `[S₀…S_T]` is the analyzer's forward
tube. -/
theorem C1_tube_soundness (net : Network) (d : Dynamics) (bstep : Box → Box)
    (hb : ∀ S x, memBox x S → memBox (closedLoopStep net d x) (bstep S))
    (S0 : Box) (T : Nat) (x0 : Vec) (t : Nat) (ht : t ≤ T) (h0 : memBox x0 S0) :
    memBox (traj net d x0 t) ((reachTubeB bstep S0 T).getD t []) := by
  rw [reachTubeB_getD bstep S0 ht]
  exact reachSetB_sound net d bstep hb h0 t

theorem C1_tube_soundness_witness :
    memBox (traj cnet diDyn x0w 1)
      ((reachTubeB (hullBoundStep splitFirst diDyn (ibp cnet)) diS0 5).getD 1 []) :=
  C1_tube_soundness cnet diDyn (hullBoundStep splitFirst diDyn (ibp cnet))
    (hullBoundStep_sound cnet diDyn splitFirst (ibp cnet)
      (fun _ _ h => ibp_sound cnet h) splitFirst_covers)
    diS0 5 x0w 1 (by norm_num)
    (List.Forall₂.cons (by norm_num) (List.Forall₂.cons (by norm_num) List.Forall₂.nil))

/-! ## Deadline handling

Modelled from the spec: §5 Cancellation/timeouts — every analyzer call
accepts a wall-clock deadline, checked between timesteps; on deadline the
best sound tube computed so far is returned with a *truncated* flag and
partial timesteps are dropped. No deadline machinery appears in the three
source files. The deadline is modelled as a budget of timesteps the wall
clock allows; `runTube` is a total function, so no exception can occur. -/

/-- The deadline-aware analyzer loop. `runTube step budget t S` records the
current set and advances `t` times via `step`, returning the truncated flag;
recording each timestep's set consumes one unit of the wall-clock budget. -/
def runTube (step : Box → Box) : Nat → Nat → Box → List Box × Bool
  | 0, _, _ => ([], true)
  | _ + 1, 0, S => ([S], false)
  | b + 1, t + 1, S =>
    let r := runTube step b t (step S)
    (S :: r.1, r.2)

theorem runTube_prefix (step : Box → Box) :
    ∀ (t b : Nat) (S : Box),
      ∃ rest, (runTube step b t S).1 ++ rest = (runTube step (t + 1) t S).1 := by
  intro t
  induction t with
  | zero =>
    intro b S
    cases b with
    | zero => exact ⟨[S], rfl⟩
    | succ b => exact ⟨[], rfl⟩
  | succ t ih =>
    intro b S
    cases b with
    | zero => exact ⟨(runTube step (t + 2) (t + 1) S).1, rfl⟩
    | succ b =>
      obtain ⟨rest, hr⟩ := ih b (step S)
      exact ⟨rest, by simp only [runTube, List.cons_append, hr]⟩

theorem runTube_full (step : Box → Box) :
    ∀ (t : Nat) (S : Box),
      (runTube step (t + 1) t S).1.length = t + 1 ∧ (runTube step (t + 1) t S).2 = false := by
  intro t
  induction t with
  | zero => intro S; exact ⟨rfl, rfl⟩
  | succ t ih =>
    intro S
    obtain ⟨h1, h2⟩ := ih (step S)
    exact ⟨by simp only [runTube, List.length_cons, h1], h2⟩

/-- C5. Deadline: the analyzer loop takes a wall-clock budget; with budget 0
it returns a truncated result with a tube of length 0 (and, being a total
function, no exception); with any budget the returned tube is a prefix of
the full tube (the best sound tube computed so far, partial timesteps
dropped); with enough budget the tube has length `t_max + 1` and the
truncated flag is off. -/
theorem C5_deadline (step : Box → Box) (S0 : Box) (tmax : Nat) :
    (runTube step 0 tmax S0).1 = []
    ∧ (runTube step 0 tmax S0).2 = true
    ∧ (∀ b, ∃ rest, (runTube step b tmax S0).1 ++ rest = (runTube step (tmax + 1) tmax S0).1)
    ∧ (runTube step (tmax + 1) tmax S0).1.length = tmax + 1
    ∧ (runTube step (tmax + 1) tmax S0).2 = false := by
  refine ⟨?_, ?_, fun b => runTube_prefix step tmax b S0,
    (runTube_full step tmax S0).1, (runTube_full step tmax S0).2⟩
  · cases tmax <;> rfl
  · cases tmax <;> rfl

/-! ## Configuration, RNG seeding and the driver record -/

/-- Configuration parameters the drivers read (spec §6 recognized options);
`seed` is the `analysis.seed` option. -/
structure AnalysisConfig where
  seed : Nat
  tMax : Nat
  estimateRuntime : Bool
  estimateError : Bool
  numCalls : Nat
  reachabilityDirection : String
deriving DecidableEq

/-- The single global numpy RNG state. -/
abbrev Rng := Nat

/-- `np.random.seed(s)`: reset the global RNG state to `s`. -/
def npRandomSeed (s : Nat) : Rng := s

/-- The seed `main_forward` passes to `np.random.seed`: the literal `0`
(`np.random.seed(seed=0)`), whatever the configuration says. -/
def seedUsedForward (_p : AnalysisConfig) : Nat := 0

/-- The seed `run_and_add_row` passes to `np.random.seed`: the literal `0`. -/
def seedUsedRow : Nat := 0

/-- `main_forward`'s interaction with the RNG: the incoming global RNG state
is overwritten by `np.random.seed(seed=0)` before the analysis pipeline
(abstracted as `pipeline`, the only RNG consumer) runs. -/
def mainForwardRun {α : Type} (pipeline : AnalysisConfig → Rng → α)
    (p : AnalysisConfig) (_rng : Rng) : α :=
  pipeline p (npRandomSeed (seedUsedForward p))

/-- C2 (counterexample): the claim says the RNG is seeded per analyzer call
from the configuration's `analysis.seed` option; with `analysis.seed = 5`
the drivers still seed the RNG with the hard-coded literal `0`. -/
theorem C2_seed_notFromConfig_cex :
    seedUsedForward ⟨5, 5, false, false, 1, "forward"⟩ = 0 ∧ (0 : Nat) ≠ 5 :=
  ⟨rfl, by decide⟩

/-- C2 (amended). Determinism holds: two invocations of `main_forward` with
identical parameters agree whatever the prior global RNG state was, because
the RNG is re-seeded at the start of each driver call — but with the
hard-coded constant `0`, not with the configuration's `analysis.seed`. -/
theorem C2_determinism {α : Type} (pipeline : AnalysisConfig → Rng → α)
    (p : AnalysisConfig) (rng₁ rng₂ : Rng) :
    mainForwardRun pipeline p rng₁ = mainForwardRun pipeline p rng₂
    ∧ seedUsedForward p = 0 ∧ seedUsedRow = 0 :=
  ⟨rfl, rfl, rfl⟩

/-- C6. Double integrator with IBP-style sound propagator, no partitioning,
horizon `T = 5`, `S₀ = [2.5,3] × [−0.25,0.25]`: provided the propagator's raw
control bound over `S₀` covers the scenario's full actuator range `[−1,1]`
(the controller weights are external to the repository), the computed
one-step reachable set `S₁` contains `[1.75,3.25] × [−1.25,1.25]`, and every
simulated closed-loop state `x₁` starting from `x₀ ∈ S₀` lies inside `S₁`. -/
theorem C6_double_integrator (net : Network) (P : Box → Box)
    (hP : ∀ b x, memBox x b → memBox (nnEval net x) (P b))
    (l u : ℚ) (hPS : P diS0 = [(l, u)]) (hl : l ≤ -1) (hu : 1 ≤ u)
    (x0 : Vec) (h0 : memBox x0 diS0) :
    subBox [(7/4, 13/4), (-5/4, 5/4)] ((reachTube diDyn P diS0 5).getD 1 [])
    ∧ memBox (traj net diDyn x0 1) ((reachTube diDyn P diS0 5).getD 1 []) := by
  rw [reachTube_getD diDyn P diS0 (by norm_num)]
  constructor
  · show subBox _ (stepBox diDyn diS0 (P diS0))
    rw [hPS]
    have h1 : min l 1 = l := min_eq_left (by linarith)
    have h2 : max (-1 : ℚ) l = -1 := max_eq_left hl
    have h3 : min u 1 = 1 := min_eq_right hu
    norm_num [stepBox, matBox, boxAdd, pointBox, clipBox, rowLo, rowHi,
      diDyn, diS0, subBox, h1, h2, h3, List.forall₂_cons]
  · exact reachSet_sound net diDyn P hP h0 1

theorem C6_double_integrator_witness :
    subBox [(7/4, 13/4), (-5/4, 5/4)] ((reachTube diDyn (ibp cnet) diS0 5).getD 1 [])
    ∧ memBox (traj cnet diDyn x0w 1) ((reachTube diDyn (ibp cnet) diS0 5).getD 1 []) :=
  C6_double_integrator cnet (ibp cnet) (fun _ _ h => ibp_sound cnet h)
    (-5/2) (5/2)
    (by norm_num [ibp, layerIBP, matBox, boxAdd, pointBox, rowLo, rowHi, cnet, diS0, actBox])
    (by norm_num) (by norm_num) x0w
    (List.Forall₂.cons (by norm_num) (List.Forall₂.cons (by norm_num) List.Forall₂.nil))

/-! ## Registries and the `__main__` dispatch -/

/-- Modelled from the spec: the partitioner registry keys
(`analysis.partitioner.type` ∈ {None, Uniform, SimGuided, GreedySimGuided},
§6); the registry dictionaries live outside the three source files. -/
def partitionerRegistry : List String := ["None", "Uniform", "SimGuided", "GreedySimGuided"]

/-- Modelled from the spec: the propagator registry keys
(`analysis.propagator.type` ∈ {IBP, CROWN, FastLin, SDP}, §6). -/
def propagatorRegistry : List String := ["IBP", "CROWN", "FastLin", "SDP"]

/-- A Python `KeyError` raised by a dictionary subscript. -/
inductive PyError where
  | keyError (k : String)
deriving DecidableEq

/-- `partitioner_dict[tag]` / `propagator_dict[tag]` in the `Analyzer`
setters: subscripting the registry with an unknown tag raises `KeyError`,
which propagates to the caller. -/
def registryLookup (registry : List String) (k : String) : Except PyError String :=
  if k ∈ registry then .ok k else .error (.keyError k)

/-- The two analyses the `__main__` block of `example_cfg.py` can run. -/
inductive RunKind where
  | forward
  | backward
deriving DecidableEq

/-- The `__main__` dispatch of `example_cfg.py`: two independent `if`
statements on `analysis.reachability_direction`; a direction matching
neither string runs nothing and raises nothing. -/
def mainDispatch (direction : String) : List RunKind :=
  (if direction = "forward" then [RunKind.forward] else [])
    ++ (if direction = "backward" then [RunKind.backward] else [])

/-- C3. Unknown enumeration values: subscripting the partitioner or
propagator registry with an unknown `type` tag does raise a fatal `KeyError`
surfaced to the caller, but an `analysis.reachability_direction` other than
forward/backward makes the `__main__` block run no analysis and raise no
error — it silently does nothing, against the spec's stated error policy. -/
theorem C3_unknown_direction_silent :
    mainDispatch "sideways" = []
    ∧ registryLookup partitionerRegistry "sideways" = .error (.keyError "sideways")
    ∧ registryLookup propagatorRegistry "sideways" = .error (.keyError "sideways") := by
  refine ⟨rfl, ?_, ?_⟩ <;> simp [registryLookup, partitionerRegistry, propagatorRegistry]

/-! ## The `stats` record assembled by `main_forward` -/

/-- Values stored in `main_forward`'s `stats` dictionary. -/
inductive StatVal where
  | tube (t : List Box)
  | tubeArray (ts : List (List Box))
  | numArray (xs : List ℚ)
  | errArray (es : List (List ℚ))

/-- The record keys map of `main_forward`'s `stats`. -/
abbrev Stats := List (String × StatVal)

/-- Abstract results of the `analyzer.get_reachable_set` and
`analyzer.get_error` calls that `main_forward` stores (their implementations
are outside the three source files). -/
structure ForwardOutputs where
  reachableSets : List Box
  runtimes : List ℚ
  finalErrors : List (List ℚ)
  avgErrors : List (List ℚ)
  allErrors : List (List ℚ)
  perCallSets : List (List Box)

/-- The `stats` record assembled by `main_forward`: with `estimate_runtime`
set, the keys `runtimes`, `final_step_errors`, `avg_errors`, `all_errors`
and `reachable_sets` are filled from the repeated calls; otherwise only
`reachable_sets` is stored. The `estimate_error` branch prints the errors
but stores nothing. -/
def mainForwardStats (p : AnalysisConfig) (out : ForwardOutputs) : Stats :=
  if p.estimateRuntime then
    [("runtimes", .numArray out.runtimes),
     ("final_step_errors", .errArray out.finalErrors),
     ("avg_errors", .errArray out.avgErrors),
     ("all_errors", .errArray out.allErrors),
     ("reachable_sets", .tubeArray out.perCallSets)]
  else
    [("reachable_sets", .tube out.reachableSets)]

/-- A configuration with both `estimate_runtime` and `estimate_error` off. -/
def cfgPlain : AnalysisConfig := ⟨0, 5, false, false, 1, "forward"⟩

/-- Trivial abstract analyzer outputs. -/
def outPlain : ForwardOutputs := ⟨[], [], [], [], [], []⟩

/-- C4 (counterexample): at a configuration with `estimate_runtime` off, the
record `main_forward` assembles has exactly the key `reachable_sets` — no
per-step error entry, no runtime, no cells-per-step and no truncated flag. -/
theorem C4_record_keys_cex :
    (mainForwardStats cfgPlain outPlain).map Prod.fst = ["reachable_sets"] := rfl

/-- C4 (amended). `main_forward`'s record always carries the analyzer's
reachable sets under the key `reachable_sets` (plus runtimes and error
arrays when `estimate_runtime` is set), and never carries a `truncated`
flag, a `cells_per_step` entry or a `per_step_error` entry. -/
theorem C4_record_keys (p : AnalysisConfig) (out : ForwardOutputs) :
    "reachable_sets" ∈ (mainForwardStats p out).map Prod.fst
    ∧ "truncated" ∉ (mainForwardStats p out).map Prod.fst
    ∧ "cells_per_step" ∉ (mainForwardStats p out).map Prod.fst
    ∧ "per_step_error" ∉ (mainForwardStats p out).map Prod.fst := by
  cases hp : p.estimateRuntime <;> simp [mainForwardStats, hp]

/-! ## The analyzer's error metric -/

/-- The box-area (volume) of a box: product of interval widths (spec §4.1
`volume`). -/
def boxArea (b : Box) : ℚ := (b.map (fun p => p.2 - p.1)).prod

/-- `np.mean` of a list of rationals. -/
def npMean (xs : List ℚ) : ℚ := xs.sum / xs.length

/-- Modelled from the spec: the per-timestep approximation errors of
`analyzer.get_error` (§9c): the ratio of the estimated reachable box's area
to the sampled reachable box's area at each timestep; `get_error` itself is
not among the three source files. -/
def stepErrors (est smp : List Box) : List ℚ :=
  List.zipWith (fun e s => boxArea e / boxArea s) est smp

/-- Modelled from the spec: `analyzer.get_error` returns
`(final_error, avg_error, errors)`: the per-step area ratios, their
`np.mean`, and the last entry as the final error. -/
def getError (est smp : List Box) : ℚ × ℚ × List ℚ :=
  let errs := stepErrors est smp
  (errs.getLastD 0, npMean errs, errs)

/-- The error entries of the experiment row assembled by `run_and_add_row`:
the `final_error` and `avg_error` keys take the two error values returned by
`analyzer.get_error`. -/
def runAndAddRowErrs (est smp : List Box) : List (String × ℚ) :=
  [("final_error", (getError est smp).1), ("avg_error", (getError est smp).2.1)]

theorem getLastD_eq_getD {α : Type} (l : List α) (d : α) :
    l.getLastD d = l.getD (l.length - 1) d := by
  rw [List.getLastD_eq_getLast?, List.getLast?_eq_getElem? l, List.getD_eq_getElem?_getD]

/-- C7. The `avg_error` recorded under the `avg_error` key of the experiment
row equals the mean over the `T` timesteps of the per-step box-area ratio
between estimated and sampled reachable sets, and the `final_error` entry is
the last timestep's per-step error. -/
theorem C7_avg_error (est smp : List Box) (h : est.length = smp.length)
    (_hne : 0 < est.length) :
    (runAndAddRowErrs est smp).lookup "avg_error"
      = some ((stepErrors est smp).sum / (est.length : ℚ))
    ∧ (runAndAddRowErrs est smp).lookup "final_error"
      = some ((stepErrors est smp).getD (est.length - 1) 0) := by
  have hlen : (stepErrors est smp).length = est.length := by
    simp [stepErrors, List.length_zipWith, h]
  constructor
  · simp [runAndAddRowErrs, List.lookup, getError, npMean, hlen]
  · simp [runAndAddRowErrs, List.lookup, getError, getLastD_eq_getD,
      List.getLast?_eq_getElem?, hlen]

/-- Estimated tube used by the C7 witness. -/
def estTube : List Box := [[(0, 2)], [(0, 4)]]

/-- Sampled tube used by the C7 witness. -/
def smpTube : List Box := [[(0, 1)], [(0, 2)]]

theorem C7_avg_error_witness :
    (runAndAddRowErrs estTube smpTube).lookup "avg_error"
      = some ((stepErrors estTube smpTube).sum / (estTube.length : ℚ))
    ∧ (runAndAddRowErrs estTube smpTube).lookup "final_error"
      = some ((stepErrors estTube smpTube).getD (estTube.length - 1) 0) :=
  C7_avg_error estTube smpTube rfl (by norm_num [estTube])

/-! ## The partitioner/propagator setter and the caller's dictionary

From `partition/analyzers/Analyzer.py`: the setter copies the hyperparameter
dictionary and pops `'type'` only from the copy. Python aliasing is modelled
by a heap of dictionaries addressed by index. -/

/-- A Python hyperparameter dictionary (values modelled as strings). -/
abbrev PyDict := List (String × String)

/-- A heap of dictionaries; Python variables hold addresses into it. -/
abbrev Heap := List PyDict

/-- Dereference an address. -/
def heapGet (h : Heap) (a : Nat) : PyDict := h.getD a []

/-- `d.copy()`: allocate a fresh dictionary with the same entries, returning
the new heap and the fresh address. -/
def dictCopyAlloc (h : Heap) (a : Nat) : Heap × Nat :=
  (h ++ [heapGet h a], h.length)

/-- `d.pop(k, None)`: the value at `k` (if any), and the heap with the key
removed from the dictionary at address `a`. -/
def dictPop (h : Heap) (a : Nat) (k : String) : Option String × Heap :=
  ((heapGet h a).lookup k, h.set a ((heapGet h a).filter (fun kv => kv.1 != k)))

/-- The partitioner instance the setter constructs:
`partitioner_dict[tag](**remaining_kwargs)`. -/
structure PartitionerInst where
  typeTag : Option String
  kwargs : PyDict
deriving DecidableEq

/-- The `Analyzer.partitioner` setter on a non-`None` hyperparameter
dictionary at address `a`: `hyperparams_ = hyperparams.copy()`, then
`hyperparams_.pop('type', None)`, then construction from the copy's
remaining entries. Returns the resulting heap and the constructed
partitioner. -/
def setPartitioner (h : Heap) (a : Nat) : Heap × PartitionerInst :=
  let ca := dictCopyAlloc h a
  let pr := dictPop ca.1 ca.2 "type"
  (pr.2, ⟨pr.1, heapGet pr.2 ca.2⟩)

theorem heapGet_set_ne (h : Heap) {i j : Nat} (d : PyDict) (hij : i ≠ j) :
    heapGet (h.set i d) j = heapGet h j := by
  simp [heapGet, List.getD_eq_getElem?_getD, List.getElem?_set_ne hij]

theorem heapGet_set_eq (h : Heap) {i : Nat} (d : PyDict) (hi : i < h.length) :
    heapGet (h.set i d) i = d := by
  simp [heapGet, List.getD_eq_getElem?_getD, List.getElem?_set_eq_of_lt d hi]

theorem heapGet_append_left {h : Heap} {a : Nat} (d : PyDict) (ha : a < h.length) :
    heapGet (h ++ [d]) a = heapGet h a := by
  simp [heapGet, List.getD_eq_getElem?_getD, List.getElem?_append_left ha]

theorem heapGet_append_fresh (h : Heap) (d : PyDict) :
    heapGet (h ++ [d]) h.length = d := by
  simp [heapGet, List.getD_eq_getElem?_getD, List.getElem?_concat_length]

/-- C8. Frame property of the setter: assigning `analyzer.partitioner` from
a hyperparameter dictionary leaves the caller's dictionary untouched — after
the call it still holds `type` and every other entry (so it can configure
subsequent runs) — while the constructed partitioner receives the popped
`type` tag and all remaining entries. -/
theorem C8_setter_frame (h : Heap) (a : Nat) (ha : a < h.length) :
    heapGet (setPartitioner h a).1 a = heapGet h a
    ∧ (setPartitioner h a).2.typeTag = (heapGet h a).lookup "type"
    ∧ (setPartitioner h a).2.kwargs = (heapGet h a).filter (fun kv => kv.1 != "type") := by
  have hne : h.length ≠ a := (Nat.ne_of_lt ha).symm
  have hlen : h.length < (h ++ [heapGet h a]).length := by
    simp [List.length_append]
  have hrepr : setPartitioner h a
      = ((h ++ [heapGet h a]).set h.length
          ((heapGet (h ++ [heapGet h a]) h.length).filter (fun kv => kv.1 != "type")),
         ⟨(heapGet (h ++ [heapGet h a]) h.length).lookup "type",
          heapGet ((h ++ [heapGet h a]).set h.length
            ((heapGet (h ++ [heapGet h a]) h.length).filter (fun kv => kv.1 != "type")))
            h.length⟩) := rfl
  rw [hrepr, heapGet_append_fresh h (heapGet h a)]
  exact ⟨by rw [heapGet_set_ne _ _ hne, heapGet_append_left _ ha], rfl,
    heapGet_set_eq _ _ hlen⟩

/-- The heap of the C8 witness: one dictionary, the Uniform partitioner's
hyperparameters. -/
def heap0 : Heap := [[("type", "Uniform"), ("num_partitions", "[4,4]")]]

theorem C8_setter_frame_witness :
    heapGet (setPartitioner heap0 0).1 0 = heapGet heap0 0
    ∧ (setPartitioner heap0 0).2.typeTag = (heapGet heap0 0).lookup "type"
    ∧ (setPartitioner heap0 0).2.kwargs
      = (heapGet heap0 0).filter (fun kv => kv.1 != "type") :=
  C8_setter_frame heap0 0 (by norm_num [heap0])

end NFLVeripy
